import Mathlib

/-!
Shallow embedding of the page-partition logic of `src/pdf_splitter/splitter.py`
(class PDFSplitter).  A document is represented by its total page count
(`total : Nat`); pages are identified by their 0-based index.  Page indices
produced by arithmetic on caller-supplied 1-based bounds are modelled as `Int`,
mirroring Python's unbounded signed integers, so that the absence (or presence)
of clamping is visible.  The external PDF engine's `insert_pdf` calls are
modelled by recording which page index each copy call receives; saving and
compression flags are out of scope of every claim and are not modelled.
-/

namespace PdfSplit

/-- Python `range(lo, hi)` over integers: the list `lo, lo+1, ..., hi-1`
(empty when `hi ≤ lo`). -/
def pyRange (lo hi : Int) : List Int :=
  (List.range (hi - lo).toNat).map (fun (k : Nat) => lo + (k : Int))

/-- Python `range(lo, hi)` over naturals, used where the source's indices are
naturals by construction (`split_by_pages`, `split_by_keyword`). -/
def pyRangeNat (lo hi : Nat) : List Nat :=
  List.range' lo (hi - lo)

/-! ### split_by_pages -/

/-- Number of output files computed by `split_by_pages`:
`num_files = (total_pages + pages_per_file - 1) // pages_per_file`. -/
def numFiles (total pagesPerFile : Nat) : Nat :=
  (total + pagesPerFile - 1) / pagesPerFile

/-- Pages copied into output file `i` by `split_by_pages`:
`start_page = i * pages_per_file`,
`end_page = min((i + 1) * pages_per_file, total_pages)`,
then `for page_num in range(start_page, end_page)`. -/
def pagesFile (pagesPerFile total i : Nat) : List Nat :=
  pyRangeNat (i * pagesPerFile) (min ((i + 1) * pagesPerFile) total)

/-- The ordered list of output files of `split_by_pages`, each given by the
list of source pages copied into it (`for i in range(num_files)`). -/
def split_by_pages (total pagesPerFile : Nat) : List (List Nat) :=
  (List.range (numFiles total pagesPerFile)).map (pagesFile pagesPerFile total)

/-! ### split_by_range -/

/-- Pages copied for one caller range `(start, end)` (1-based inclusive):
`start_page = start - 1`, `end_page = min(end, len(self.doc))`,
then `for page_num in range(start_page, end_page)`.  Note that only the end is
clamped; the start is merely shifted by one. -/
def rangePages (total : Nat) (r : Int × Int) : List Int :=
  pyRange (r.1 - 1) (min r.2 (total : Int))

/-- Observable outcome of one iteration of the `split_by_range` loop: either a
file is saved (the source checks `page_count > 0`, which holds exactly when the
copied page list is nonempty) or the empty range is skipped with a warning. -/
inductive RangeEvent where
  | saved (r : Int × Int) (pages : List Int)
  | warnedEmpty (r : Int × Int)
deriving DecidableEq

/-- The `split_by_range` loop, one event per caller range, in order. -/
def split_by_range_events (total : Nat) : List (Int × Int) → List RangeEvent
  | [] => []
  | r :: rs =>
      (if rangePages total r = [] then RangeEvent.warnedEmpty r
       else RangeEvent.saved r (rangePages total r)) :: split_by_range_events total rs

/-- Output files of `split_by_range`: each saved file, labelled with the
original (unclamped) caller range it came from, with its copied pages. -/
def split_by_range (total : Nat) (ranges : List (Int × Int)) :
    List ((Int × Int) × List Int) :=
  (split_by_range_events total ranges).filterMap fun e =>
    match e with
    | RangeEvent.saved r p => some (r, p)
    | RangeEvent.warnedEmpty _ => none

/-! ### Filename sanitization used by split_by_bookmark -/

/-- Python's `c.isalnum()`, modelled on the ASCII fragment (letters and
digits).  Every property claimed about sanitization is insensitive to which
characters count as alphanumeric. -/
def pyIsAlnum (c : Char) : Bool := c.isAlphanum

/-- The character filter of the sanitizer:
`c.isalnum() or c in (' ', '-', '_')`. -/
def keepChar (c : Char) : Bool :=
  pyIsAlnum c || c = ' ' || c = '-' || c = '_'

/-- Python's `str.strip()`: remove leading and trailing whitespace. -/
def pyStrip (l : List Char) : List Char :=
  ((l.dropWhile Char.isWhitespace).reverse.dropWhile Char.isWhitespace).reverse

/-- Decimal digits of a natural number, most significant first, with explicit
fuel (the fuel `n + 1` always suffices since the argument shrinks by a factor
of ten each step).  Models Python's decimal formatting inside f-strings. -/
def natCharsAux : Nat → Nat → List Char
  | 0, _ => []
  | fuel + 1, n =>
      if n < 10 then [Nat.digitChar n]
      else natCharsAux fuel (n / 10) ++ [Nat.digitChar (n % 10)]

/-- Decimal rendering of a natural number, as in Python's `f"section_{i+1}"`. -/
def natChars (n : Nat) : List Char := natCharsAux (n + 1) n

/-- The sanitized filename component for a bookmark title, with `n` the
1-based position of the entry in the extended table of contents:
`safe_title = "".join(c for c in title if c.isalnum() or c in (' ', '-', '_')).strip()`
then `safe_title[:50] if safe_title else f"section_{i+1}"`. -/
def sanitizeTitle (title : List Char) (n : Nat) : List Char :=
  let st := pyStrip (title.filter keepChar)
  if st = [] then "section_".toList ++ natChars n else st.take 50

/-! ### split_by_bookmark -/

/-- One table-of-contents entry as returned by the engine's `get_toc()`:
`(level, title, page)` with a 1-based starting page. -/
structure TocEntry where
  level : Nat
  title : List Char
  page  : Int
deriving DecidableEq

/-- Observable outcome of `split_by_bookmark`: the no-bookmarks warning, a
saved section file (named by its sanitized title) with its copied pages, or a
skipped empty section with a warning. -/
inductive BookmarkEvent where
  | noToc
  | saved (name : List Char) (pages : List Int)
  | warnedEmpty (title : List Char)
deriving DecidableEq

/-- The scan for the end of a section: the starting page of the first
following entry with `level == 1`, or `len(self.doc) + 1` when none follows. -/
def findEndPage (total : Nat) : List TocEntry → Int
  | [] => (total : Int) + 1
  | e :: rest => if e.level = 1 then e.page else findEndPage total rest

/-- Pages copied for one section:
`for page_num in range(start_page - 1, end_page - 1): if page_num < len(self.doc)`. -/
def sectionPages (total : Nat) (startPage endPage : Int) : List Int :=
  (pyRange (startPage - 1) (endPage - 1)).filter (fun p => p < (total : Int))

/-- The `split_by_bookmark` loop over the original entries (the appended
sentinel is excluded from the iteration but visible to the end-page scan).
`n` is the 1-based index used by the `section_<n>` fallback.  The re-attached
relative table of contents of each sub-document (`set_toc`) is not modelled:
no claim concerns it. -/
def bookmarkSections (total : Nat) : Nat → List TocEntry → TocEntry → List BookmarkEvent
  | _, [], _ => []
  | n, e :: rest, sentinel =>
      (if e.level = 1 then
        (let pages := sectionPages total e.page (findEndPage total (rest ++ [sentinel]))
         if pages = [] then [BookmarkEvent.warnedEmpty e.title]
         else [BookmarkEvent.saved (sanitizeTitle e.title n) pages])
       else []) ++ bookmarkSections total (n + 1) rest sentinel

/-- The whole of `split_by_bookmark`: with an empty table of contents it warns
and returns immediately; otherwise it appends the sentinel
`(toc[-1][0], "End", total_pages)` and runs the loop over the original
entries. -/
def split_by_bookmark (total : Nat) : List TocEntry → List BookmarkEvent
  | [] => [BookmarkEvent.noToc]
  | e :: es =>
      bookmarkSections total 1 (e :: es)
        { level := ((e :: es).getLast (List.cons_ne_nil e es)).level
          title := "End".toList
          page := (total : Int) }

/-- The saved files among the bookmark events, in order. -/
def bookmarkFiles (evs : List BookmarkEvent) : List (List Char × List Int) :=
  evs.filterMap fun e =>
    match e with
    | BookmarkEvent.saved n p => some (n, p)
    | _ => none

/-- The page lists of the saved bookmark files, in order. -/
def bookmarkPages (evs : List BookmarkEvent) : List (List Int) :=
  (bookmarkFiles evs).map Prod.snd

/-! ### split_by_keyword -/

/-- The split points of `split_by_keyword`: `[0]`, then every page index whose
extracted text contains the keyword (the scan is modelled by the predicate
`hits`, page index to containment), then `total_pages`. -/
def splitPoints (total : Nat) (hits : Nat → Bool) : List Nat :=
  (0 :: (List.range total).filter hits) ++ [total]

/-- The second loop of `split_by_keyword`: for every consecutive pair of split
points with `end_page > start_page`, one file with the pages in between. -/
def filesOf : List Nat → List (List Nat)
  | a :: b :: rest => (if a < b then [pyRangeNat a b] else []) ++ filesOf (b :: rest)
  | _ => []

/-- Output files of `split_by_keyword`, each given by its list of copied
pages, in order. -/
def split_by_keyword (total : Nat) (hits : Nat → Bool) : List (List Nat) :=
  filesOf (splitPoints total hits)

/-! ### Resource model of a strategy invocation

The source closes `self.doc` in the last statement of each strategy method;
there is no try/finally.  An exception thrown by the engine while saving file
`i` therefore propagates out of the method before the close statement is
reached.  `split_by_pages_run` makes that control flow explicit: `saveFails`
says whether the engine's save throws at file `i`, the first component is the
method's outcome, the second whether `self.doc.close()` was executed. -/

/-- Discriminator for a successful outcome. -/
def exceptOk : Except Unit (List Nat) → Bool
  | Except.ok _ => true
  | Except.error _ => false

/-- The `split_by_pages` loop with failure injection: file indices are saved
in order until the injected save failure (if any) throws. -/
def pagesLoop (saveFails : Nat → Bool) : Nat → Nat → List Nat → Except Unit (List Nat)
  | _, 0, acc => Except.ok acc.reverse
  | i, fuel + 1, acc =>
      if saveFails i then Except.error ()
      else pagesLoop saveFails (i + 1) fuel (i :: acc)

/-- A full `split_by_pages` invocation: run the loop, and only when it returns
normally execute the trailing `self.doc.close()`. -/
def split_by_pages_run (total pagesPerFile : Nat) (saveFails : Nat → Bool) :
    Except Unit (List Nat) × Bool :=
  match pagesLoop saveFails 0 (numFiles total pagesPerFile) [] with
  | Except.ok files => (Except.ok files, true)
  | Except.error e => (Except.error e, false)

/-! ### Covering families of ranges (used to state the round-trip claim) -/

/-- The supplied ranges partition `[lo, hi]` in order: the first range starts
at `lo`, each range is nonempty and is followed immediately by the next, and
the last one ends at `hi`. -/
def covers (lo : Int) : List (Int × Int) → Int → Bool
  | [], hi => lo == hi + 1
  | (s, e) :: rs, hi => s == lo && decide (s ≤ e) && covers (e + 1) rs hi

end PdfSplit

namespace PdfSplit

/-! ### Basic facts about the embedded Python ranges -/

theorem mem_pyRange {p lo hi : Int} : p ∈ pyRange lo hi ↔ lo ≤ p ∧ p < hi := by
  simp only [pyRange, List.mem_map, List.mem_range]
  constructor
  · rintro ⟨k, hk, rfl⟩
    omega
  · rintro ⟨h1, h2⟩
    exact ⟨(p - lo).toNat, by omega, by omega⟩

theorem pyRange_append {lo mid hi : Int} (h1 : lo ≤ mid) (h2 : mid ≤ hi) :
    pyRange lo mid ++ pyRange mid hi = pyRange lo hi := by
  unfold pyRange
  have hn : (hi - lo).toNat = (mid - lo).toNat + (hi - mid).toNat := by omega
  rw [hn, List.range_add, List.map_append, List.map_map]
  congr 1
  refine List.map_congr_left ?_
  intro a _
  simp only [Function.comp_apply]
  omega

theorem pyRange_zero (n : Nat) :
    pyRange 0 (n : Int) = (List.range n).map (fun (p : Nat) => (p : Int)) := by
  unfold pyRange
  have : ((n : Int) - 0).toNat = n := by omega
  rw [this]
  refine List.map_congr_left ?_
  intro a _
  omega

theorem pairwise_pyRange (lo hi : Int) : List.Pairwise (· < ·) (pyRange lo hi) := by
  unfold pyRange
  refine List.Pairwise.map _ (fun a b h => ?_) (List.sorted_lt_range _)
  omega

theorem length_pyRangeNat (lo hi : Nat) : (pyRangeNat lo hi).length = hi - lo := by
  simp [pyRangeNat]

theorem pyRangeNat_head? {lo hi : Nat} (h : lo < hi) : (pyRangeNat lo hi).head? = some lo := by
  unfold pyRangeNat
  rw [List.head?_range', if_neg (by omega)]

theorem pyRangeNat_getLast? {lo hi : Nat} (h : lo < hi) :
    (pyRangeNat lo hi).getLast? = some (hi - 1) := by
  unfold pyRangeNat
  have he : hi - lo = (hi - lo - 1) + 1 := by omega
  rw [he, List.range'_1_concat, List.getLast?_concat]
  congr 1
  omega

theorem pyRangeNat_ne_nil {lo hi : Nat} (h : lo < hi) : pyRangeNat lo hi ≠ [] := by
  unfold pyRangeNat
  rw [List.range'_ne_nil]
  omega

/-! ### split_by_pages: shape of the output -/

theorem flatten_pagesFile (total ppf k : Nat) :
    ((List.range k).map (pagesFile ppf total)).flatten = List.range' 0 (min (k * ppf) total) := by
  induction k with
  | zero => simp
  | succ k ih =>
    rw [List.range_succ, List.map_append, List.flatten_append, ih]
    simp only [List.map_cons, List.map_nil, List.flatten_cons, List.flatten_nil, List.append_nil]
    unfold pagesFile pyRangeNat
    have hab : k * ppf ≤ (k + 1) * ppf := Nat.mul_le_mul_right _ (by omega)
    rcases Nat.le_total (k * ppf) total with h | h
    · rw [Nat.min_eq_left h]
      have hle : k * ppf ≤ min ((k + 1) * ppf) total := by omega
      have happ := List.range'_append_1 0 (k * ppf) (min ((k + 1) * ppf) total - k * ppf)
      rw [Nat.zero_add] at happ
      rw [happ]
      congr 1
      omega
    · have h2 : min (k * ppf) total = total := by omega
      have h3 : min ((k + 1) * ppf) total = total := by omega
      rw [h2, h3]
      have h5 : total - k * ppf = 0 := by omega
      rw [h5]
      simp

theorem total_le_numFiles_mul (total ppf : Nat) (hppf : 1 ≤ ppf) :
    total ≤ numFiles total ppf * ppf := by
  unfold numFiles
  rcases Nat.eq_zero_or_pos total with h | h
  · simp [h]
  · have he : total + ppf - 1 = (total - 1) + ppf := by omega
    rw [he, Nat.add_div_right _ (by omega)]
    have hdm := Nat.div_add_mod (total - 1) ppf
    have hmod : (total - 1) % ppf < ppf := Nat.mod_lt _ (by omega)
    have hc : ((total - 1) / ppf + 1) * ppf = ppf * ((total - 1) / ppf) + ppf := by
      rw [Nat.succ_mul, Nat.mul_comm]
    omega

theorem mul_lt_total_of_lt_numFiles {total ppf k : Nat} (hppf : 1 ≤ ppf)
    (hk : k < numFiles total ppf) : k * ppf < total := by
  unfold numFiles at hk
  rcases Nat.eq_zero_or_pos total with h | h
  · subst h
    rw [Nat.div_eq_of_lt (by omega)] at hk
    omega
  · have h1 : k + 1 ≤ (total + ppf - 1) / ppf := hk
    have h2 : (k + 1) * ppf ≤ (total + ppf - 1) / ppf * ppf :=
      Nat.mul_le_mul_right _ h1
    have h3 : (total + ppf - 1) / ppf * ppf ≤ total + ppf - 1 := Nat.div_mul_le_self _ _
    have h4 : (k + 1) * ppf = k * ppf + ppf := Nat.succ_mul _ _
    omega

theorem flatten_split_by_pages (total ppf : Nat) (hppf : 1 ≤ ppf) :
    (split_by_pages total ppf).flatten = List.range total := by
  unfold split_by_pages
  rw [flatten_pagesFile]
  have h1 := total_le_numFiles_mul total ppf hppf
  have h2 : min (numFiles total ppf * ppf) total = total := by omega
  rw [h2, List.range_eq_range']

theorem length_split_by_pages (total ppf : Nat) :
    (split_by_pages total ppf).length = numFiles total ppf := by
  simp [split_by_pages]

end PdfSplit

namespace PdfSplit

theorem length_pagesFile (ppf total i : Nat) :
    (pagesFile ppf total i).length = min ((i + 1) * ppf) total - i * ppf := by
  simp [pagesFile, pyRangeNat]

theorem split_by_pages_getElem? (total ppf i : Nat) (h : i < numFiles total ppf) :
    (split_by_pages total ppf)[i]? = some (pagesFile ppf total i) := by
  simp [split_by_pages, List.getElem?_range, h]

theorem numFiles_pos (total ppf : Nat) (htotal : 1 ≤ total) (hppf : 1 ≤ ppf) :
    1 ≤ numFiles total ppf := by
  have h := total_le_numFiles_mul total ppf hppf
  rcases Nat.eq_zero_or_pos (numFiles total ppf) with h0 | h0
  · rw [h0] at h
    simp at h
    omega
  · exact h0

theorem split_by_pages_getLast (total ppf : Nat) (htotal : 1 ≤ total) (hppf : 1 ≤ ppf) :
    (split_by_pages total ppf).getLast? =
      some (pagesFile ppf total (numFiles total ppf - 1)) := by
  have h1 := numFiles_pos total ppf htotal hppf
  unfold split_by_pages
  have h2 : numFiles total ppf = (numFiles total ppf - 1) + 1 := by omega
  rw [h2, List.range_succ, List.map_append]
  simp

theorem length_last_file (total ppf : Nat) (htotal : 1 ≤ total) (hppf : 1 ≤ ppf) :
    (pagesFile ppf total (numFiles total ppf - 1)).length =
      if total % ppf = 0 then ppf else total % ppf := by
  rw [length_pagesFile]
  have hnfpos := numFiles_pos total ppf htotal hppf
  have hub := total_le_numFiles_mul total ppf hppf
  have hlb := mul_lt_total_of_lt_numFiles hppf
    (show numFiles total ppf - 1 < numFiles total ppf by omega)
  have hsucc : numFiles total ppf - 1 + 1 = numFiles total ppf := by omega
  rw [hsucc]
  have hmin : min (numFiles total ppf * ppf) total = total := by omega
  rw [hmin]
  set d := numFiles total ppf - 1 with hd
  have hnf : numFiles total ppf = d + 1 := by omega
  rw [hnf] at hub
  have hmul : (d + 1) * ppf = d * ppf + ppf := Nat.succ_mul _ _
  by_cases hrest : total - d * ppf = ppf
  · have htot : total = (d + 1) * ppf := by omega
    have hmod : total % ppf = 0 := by
      rw [htot]
      exact Nat.mul_mod_left _ _
    rw [if_pos hmod]
    exact hrest
  · have hrest' : total - d * ppf < ppf := by omega
    have hcomm : d * ppf = ppf * d := Nat.mul_comm _ _
    have htot : total = ppf * d + (total - d * ppf) := by omega
    have hmod : total % ppf = total - d * ppf := by
      conv_lhs => rw [htot]
      rw [Nat.mul_add_mod]
      exact Nat.mod_eq_of_lt hrest'
    have hpos : total - d * ppf ≠ 0 := by omega
    rw [if_neg (by omega)]
    exact hmod.symm

/-- C1: for every open document with `total ≥ 1` pages and every
`pages_per_file ≥ 1`, `split_by_pages` produces exactly
`ceil(total / pages_per_file)` output files (stated both as the source's
formula and by the characterizing inequalities of the ceiling), the page
counts of the files sum to `total`, every file except possibly the last
contains exactly `pages_per_file` pages, and the last contains
`total mod pages_per_file` pages (or `pages_per_file` when divisible). -/
theorem c1_split_by_pages (total ppf : Nat) (htotal : 1 ≤ total) (hppf : 1 ≤ ppf) :
    (split_by_pages total ppf).length = (total + ppf - 1) / ppf ∧
    total ≤ (split_by_pages total ppf).length * ppf ∧
    (split_by_pages total ppf).length * ppf < total + ppf ∧
    ((split_by_pages total ppf).map List.length).sum = total ∧
    (∀ i, i + 1 < (split_by_pages total ppf).length →
      ((split_by_pages total ppf)[i]?).map List.length = some ppf) ∧
    ((split_by_pages total ppf).getLast?).map List.length =
      some (if total % ppf = 0 then ppf else total % ppf) := by
  refine ⟨?_, ?_, ?_, ?_, ?_, ?_⟩
  · rw [length_split_by_pages]; rfl
  · rw [length_split_by_pages]; exact total_le_numFiles_mul total ppf hppf
  · rw [length_split_by_pages]
    have h3 : numFiles total ppf * ppf ≤ total + ppf - 1 := Nat.div_mul_le_self _ _
    omega
  · have h := congrArg List.length (flatten_split_by_pages total ppf hppf)
    rw [List.length_flatten] at h
    simpa using h
  · intro i hi
    rw [length_split_by_pages] at hi
    rw [split_by_pages_getElem? total ppf i (by omega)]
    have hlt := mul_lt_total_of_lt_numFiles hppf (show i + 1 < numFiles total ppf from hi)
    have hmono : i * ppf ≤ (i + 1) * ppf := Nat.mul_le_mul_right _ (by omega)
    have hsucc : (i + 1) * ppf = i * ppf + ppf := Nat.succ_mul _ _
    simp only [Option.map_some', length_pagesFile]
    congr 1
    omega
  · rw [split_by_pages_getLast total ppf htotal hppf]
    simp only [Option.map_some']
    rw [length_last_file total ppf htotal hppf]

/-- Witness for C1 at `total = 5`, `pages_per_file = 2`. -/
theorem c1_split_by_pages_witness :
    ((split_by_pages 5 2).map List.length).sum = 5 :=
  (c1_split_by_pages 5 2 (by decide) (by decide)).2.2.2.1

end PdfSplit

namespace PdfSplit

/-! ### split_by_range: structure of the loop -/

theorem length_pyRange (lo hi : Int) : (pyRange lo hi).length = (hi - lo).toNat := by
  simp [pyRange]

theorem split_by_range_events_cons (total : Nat) (r : Int × Int) (rs : List (Int × Int)) :
    split_by_range_events total (r :: rs) =
      (if rangePages total r = [] then RangeEvent.warnedEmpty r
       else RangeEvent.saved r (rangePages total r)) :: split_by_range_events total rs := rfl

theorem split_by_range_cons (total : Nat) (r : Int × Int) (rs : List (Int × Int)) :
    split_by_range total (r :: rs) =
      (if rangePages total r = [] then [] else [(r, rangePages total r)]) ++
        split_by_range total rs := by
  unfold split_by_range
  rw [split_by_range_events_cons]
  by_cases h : rangePages total r = []
  · rw [if_pos h, if_pos h]
    rw [List.filterMap_cons]
    rfl
  · rw [if_neg h, if_neg h]
    rw [List.filterMap_cons]
    rfl

theorem warned_mem (total : Nat) :
    ∀ (rs : List (Int × Int)), ∀ r ∈ rs, rangePages total r = [] →
      RangeEvent.warnedEmpty r ∈ split_by_range_events total rs
  | r' :: rs, r, hr, hempty => by
      unfold split_by_range_events
      rcases List.mem_cons.mp hr with rfl | hr
      · rw [if_pos hempty]
        exact List.mem_cons_self _ _
      · exact List.mem_cons_of_mem _ (warned_mem total rs r hr hempty)

theorem pages_in_bounds (total : Nat) :
    ∀ (rs : List (Int × Int)), (∀ r ∈ rs, 1 ≤ r.1) →
      ∀ p ∈ ((split_by_range total rs).map Prod.snd).flatten, 0 ≤ p ∧ p < (total : Int)
  | [], _, p, hp => by simp [split_by_range, split_by_range_events] at hp
  | r :: rs, h, p, hp => by
      rw [split_by_range_cons, List.map_append, List.flatten_append] at hp
      rcases List.mem_append.mp hp with hp | hp
      · by_cases hr : rangePages total r = []
        · rw [if_pos hr] at hp
          simp at hp
        · rw [if_neg hr] at hp
          simp only [List.map_cons, List.map_nil, List.flatten_cons, List.flatten_nil,
            List.append_nil] at hp
          unfold rangePages at hp
          have hmem := mem_pyRange.mp hp
          have h1 := h r (by simp)
          constructor <;> omega
      · exact pages_in_bounds total rs (fun r' hr' => h r' (by simp [hr'])) p hp

/-! ### Covering range families -/

theorem covers_le : ∀ (rs : List (Int × Int)) (lo hi : Int),
    covers lo rs hi = true → lo ≤ hi + 1
  | [], lo, hi, h => by
      simp [covers] at h
      omega
  | (s, e) :: rs, lo, hi, h => by
      simp only [covers, Bool.and_eq_true, beq_iff_eq, decide_eq_true_eq] at h
      obtain ⟨⟨hs, hse⟩, hc⟩ := h
      have := covers_le rs (e + 1) hi hc
      omega

theorem covers_flatten (total : Nat) :
    ∀ (rs : List (Int × Int)) (lo : Int), 1 ≤ lo → covers lo rs (total : Int) = true →
      ((split_by_range total rs).map Prod.snd).flatten = pyRange (lo - 1) (total : Int)
  | [], lo, hlo, h => by
      simp [covers] at h
      simp only [split_by_range, split_by_range_events, List.filterMap_nil, List.map_nil,
        List.flatten_nil]
      unfold pyRange
      have hz : ((total : Int) - (lo - 1)).toNat = 0 := by omega
      rw [hz]
      simp
  | (s, e) :: rs, lo, hlo, h => by
      simp only [covers, Bool.and_eq_true, beq_iff_eq, decide_eq_true_eq] at h
      obtain ⟨⟨hs, hse⟩, hc⟩ := h
      have he_le : e + 1 ≤ (total : Int) + 1 := covers_le rs (e + 1) (total : Int) hc
      have hmin : min e (total : Int) = e := by omega
      have hpages : rangePages total (s, e) = pyRange (s - 1) e := by
        unfold rangePages
        rw [hmin]
      have hne : rangePages total (s, e) ≠ [] := by
        rw [hpages]
        intro hnil
        have hlen := congrArg List.length hnil
        rw [length_pyRange] at hlen
        simp at hlen
        omega
      rw [split_by_range_cons, if_neg hne, List.map_append, List.flatten_append]
      simp only [List.map_cons, List.map_nil, List.flatten_cons, List.flatten_nil,
        List.append_nil]
      rw [covers_flatten total rs (e + 1) (by omega) hc, hpages]
      have hstep : e + 1 - 1 = e := by omega
      rw [hstep, hs]
      exact pyRange_append (by omega) (by omega)

/-- C3: for every document and every `pages_per_file ≥ 1`, concatenating the
page sequences of all output files of `split_by_pages`, in order, yields
exactly the original page sequence; the same holds for `split_by_range` when
the supplied ranges are non-overlapping and cover the document in order
(first range starts at page 1, each range follows the previous one
immediately, the last ends at the last page). -/
theorem c3_round_trip (total ppf : Nat) (ranges : List (Int × Int))
    (hppf : 1 ≤ ppf) (hcov : covers 1 ranges (total : Int) = true) :
    (split_by_pages total ppf).flatten = List.range total ∧
    ((split_by_range total ranges).map Prod.snd).flatten =
      (List.range total).map (fun (p : Nat) => (p : Int)) := by
  refine ⟨flatten_split_by_pages total ppf hppf, ?_⟩
  have h := covers_flatten total ranges 1 (by omega) hcov
  rw [h]
  have hz : (1 : Int) - 1 = 0 := by omega
  rw [hz, pyRange_zero]

/-- Witness for C3 at a 4-page document, `pages_per_file = 3`, and the
covering ranges `[(1,2),(3,4)]`. -/
theorem c3_round_trip_witness :
    (split_by_pages 4 3).flatten = List.range 4 :=
  (c3_round_trip 4 3 [(1, 2), (3, 4)] (by decide) (by decide)).1

end PdfSplit

namespace PdfSplit

theorem split_by_range_filter (total : Nat) :
    ∀ (rs : List (Int × Int)),
      split_by_range total rs =
        (rs.filter (fun r => decide (rangePages total r ≠ []))).map
          (fun r => (r, rangePages total r))
  | [] => rfl
  | r :: rs => by
      rw [split_by_range_cons]
      by_cases h : rangePages total r = []
      · rw [if_pos h, split_by_range_filter total rs]
        simp [List.filter_cons, h]
      · rw [if_neg h, split_by_range_filter total rs]
        simp [List.filter_cons, h]

/-- C5: for every list of 1-based ranges, `split_by_range` produces exactly
one output file per range that is non-empty after clamping the end to the
total page count (in the order given, skipped ranges producing nothing), every
produced file is non-empty with its pages in increasing document order, every
range that yields zero pages is skipped with a warning while processing
continues with the remaining ranges, and in particular a range whose start
lies beyond the last page yields zero pages. -/
theorem c5_split_by_range (total : Nat) (ranges : List (Int × Int)) :
    split_by_range total ranges =
      (ranges.filter (fun r => decide (rangePages total r ≠ []))).map
        (fun r => (r, rangePages total r)) ∧
    (∀ r ∈ ranges, rangePages total r = [] →
      RangeEvent.warnedEmpty r ∈ split_by_range_events total ranges) ∧
    (∀ f ∈ split_by_range total ranges, f.2 ≠ [] ∧ List.Pairwise (· < ·) f.2) ∧
    (∀ r ∈ ranges, (total : Int) < r.1 → rangePages total r = []) := by
  refine ⟨split_by_range_filter total ranges, warned_mem total ranges, ?_, ?_⟩
  · intro f hf
    rw [split_by_range_filter total ranges] at hf
    obtain ⟨r, hr, rfl⟩ := List.mem_map.mp hf
    have hne : rangePages total r ≠ [] := by
      have := (List.mem_filter.mp hr).2
      simpa using this
    exact ⟨hne, pairwise_pyRange _ _⟩
  · intro r hr hlt
    have hlen : (rangePages total r).length = 0 := by
      unfold rangePages
      rw [length_pyRange]
      omega
    exact List.eq_nil_of_length_eq_zero hlen

/-- Witness for C5: on a 5-page document with ranges `[(1,3),(7,9)]`, the
out-of-bounds range `(7,9)` is skipped with a warning. -/
theorem c5_split_by_range_witness :
    RangeEvent.warnedEmpty (7, 9) ∈ split_by_range_events 5 [(1, 3), (7, 9)] :=
  (c5_split_by_range 5 [(1, 3), (7, 9)]).2.1 (7, 9) (by decide) (by decide)

/-- C6, counterexample: the claim says every caller-supplied page number
outside the document's bounds — including a range start below 1 — is clamped
into bounds, so every page index handed to the engine would lie in
`[0, total)`.  But on a 5-page document the range `(0, 3)` makes the code copy
page index `-1`, which is outside the document's bounds: starts are not
clamped. -/
theorem c6_counterexample :
    (-1 : Int) ∈ ((split_by_range 5 [(0, 3)]).map Prod.snd).flatten ∧
      ¬ (0 ≤ (-1 : Int)) := by decide

/-- C6, amended: the end of a range is clamped to the total page count, so
whenever every supplied range start is at least 1 every page index the code
copies lies within the document's bounds, and a range with no resulting pages
is skipped with a warning; a range start below 1 is not clamped and produces
page indices below 0. -/
theorem c6_amended (total : Nat) (ranges : List (Int × Int))
    (h : ∀ r ∈ ranges, 1 ≤ r.1) :
    (∀ p ∈ ((split_by_range total ranges).map Prod.snd).flatten,
        0 ≤ p ∧ p < (total : Int)) ∧
    (∀ r ∈ ranges, rangePages total r = [] →
        RangeEvent.warnedEmpty r ∈ split_by_range_events total ranges) :=
  ⟨pages_in_bounds total ranges h, warned_mem total ranges⟩

/-- Witness for C6's amended statement on a 5-page document with range
`(1,3)`: page 0 is copied and lies in bounds. -/
theorem c6_amended_witness : 0 ≤ (0 : Int) ∧ (0 : Int) < ((5 : Nat) : Int) :=
  (c6_amended 5 [(1, 3)] (by decide)).1 0 (by decide)

end PdfSplit

namespace PdfSplit

/-- C7: for every document whose table of contents is empty,
`split_by_bookmark` emits exactly the warning event, returns no saved file,
and (being a total function) does not raise. -/
theorem c7_bookmark_empty_toc (total : Nat) :
    split_by_bookmark total [] = [BookmarkEvent.noToc] ∧
    bookmarkFiles (split_by_bookmark total []) = [] :=
  ⟨rfl, rfl⟩

/-- C2, evaluated at the failing input: on a 30-page document whose top-level
entries start at pages 1, 10 and 25, the code produces three files spanning
0-based pages `[0,9)`, `[9,24)` and `[24,29)` — the last section stops one
page short of the document's end because the appended sentinel entry carries
page `total_pages` instead of `total_pages + 1`, so 0-based page 29 (1-based
page 30) appears in no output file, while the claim requires the last section
to span 1-based pages `[25,30]`. -/
theorem c2_bookmark_drops_last_page :
    bookmarkPages (split_by_bookmark 30
        [⟨1, ['A'], 1⟩, ⟨1, ['B'], 10⟩, ⟨1, ['C'], 25⟩]) =
      [pyRange 0 9, pyRange 9 24, pyRange 24 29] ∧
    (29 : Int) ∉ (bookmarkPages (split_by_bookmark 30
        [⟨1, ['A'], 1⟩, ⟨1, ['B'], 10⟩, ⟨1, ['C'], 25⟩])).flatten := by
  decide

/-- C10: on a source document with zero pages, `split_by_keyword` returns the
empty list (no output file), whatever the keyword matches. -/
theorem c10_keyword_empty_doc (hits : Nat → Bool) :
    split_by_keyword 0 hits = [] := rfl

/-! ### C9: the close call on exit paths -/

theorem pagesLoop_ok (saveFails : Nat → Bool) :
    ∀ (fuel i : Nat) (acc : List Nat), (∀ j, j < i + fuel → saveFails j = false) →
      ∃ l, pagesLoop saveFails i fuel acc = Except.ok l
  | 0, i, acc, _ => ⟨acc.reverse, rfl⟩
  | fuel + 1, i, acc, h => by
      unfold pagesLoop
      rw [h i (by omega)]
      rw [if_neg (by simp)]
      exact pagesLoop_ok saveFails fuel (i + 1) (i :: acc) (fun j hj => h j (by omega))

/-- C9, counterexample: the claim says the source document handle is closed on
every exit path, including an error while saving a partition.  But when the
engine's save throws at the first file of a 1-page document, the invocation
ends in the error outcome with the close statement never executed: there is no
guaranteed-cleanup block in the code. -/
theorem c9_counterexample :
    (split_by_pages_run 1 1 (fun _ => true)).2 = false ∧
    (split_by_pages_run 1 1 (fun _ => true)).1 = Except.error () :=
  ⟨rfl, rfl⟩

/-- C9, amended: the handle is closed exactly on the non-exception exit path —
the close statement is the last statement of the method, so it runs whenever
the loop completes (in particular whenever no save fails), and is skipped
whenever an exception propagates out of the loop. -/
theorem c9_amended (total ppf : Nat) (saveFails : Nat → Bool) :
    (split_by_pages_run total ppf saveFails).2 =
      exceptOk (split_by_pages_run total ppf saveFails).1 ∧
    ((∀ i, i < numFiles total ppf → saveFails i = false) →
      (split_by_pages_run total ppf saveFails).2 = true) := by
  constructor
  · unfold split_by_pages_run
    cases h : pagesLoop saveFails 0 (numFiles total ppf) [] <;> simp [exceptOk]
  · intro hok
    unfold split_by_pages_run
    obtain ⟨l, hl⟩ := pagesLoop_ok saveFails (numFiles total ppf) 0 []
      (fun j hj => hok j (by omega))
    rw [hl]

/-- Witness for C9's amended statement: with no injected failure on a 4-page
document split in twos, the handle is closed. -/
theorem c9_amended_witness : (split_by_pages_run 4 2 (fun _ => false)).2 = true :=
  (c9_amended 4 2 (fun _ => false)).2 (fun _ _ => rfl)

end PdfSplit

namespace PdfSplit

/-! ### C8: the sanitized filename component -/

theorem natCharsAux_digits : ∀ (fuel n : Nat), ∀ c ∈ natCharsAux fuel n, c.isDigit = true
  | 0, n, c, hc => by simp [natCharsAux] at hc
  | fuel + 1, n, c, hc => by
      unfold natCharsAux at hc
      by_cases h : n < 10
      · rw [if_pos h] at hc
        simp at hc
        subst hc
        have hall : ∀ m, m < 10 → (Nat.digitChar m).isDigit = true := by decide
        exact hall n h
      · rw [if_neg h] at hc
        rcases List.mem_append.mp hc with hc | hc
        · exact natCharsAux_digits fuel (n / 10) c hc
        · simp at hc
          subst hc
          have hall : ∀ m, m < 10 → (Nat.digitChar m).isDigit = true := by decide
          exact hall (n % 10) (Nat.mod_lt _ (by omega))

theorem keepChar_of_digit {c : Char} (h : c.isDigit = true) : keepChar c = true := by
  simp [keepChar, pyIsAlnum, Char.isAlphanum, h]

theorem mem_pyStrip {c : Char} {l : List Char} (h : c ∈ pyStrip l) : c ∈ l := by
  unfold pyStrip at h
  rw [List.mem_reverse] at h
  have h2 : c ∈ (l.dropWhile Char.isWhitespace).reverse :=
    (List.dropWhile_sublist _).subset h
  rw [List.mem_reverse] at h2
  exact (List.dropWhile_sublist _).subset h2

/-- C8: for every bookmark title, the sanitized filename component has at most
50 characters and contains only alphanumeric characters, spaces, hyphens and
underscores, and when sanitization yields the empty string the component falls
back to `section_<n>` (the hypothesis bounds the rendered index by 42 digits,
which the 8-character fallback needs to stay within 50 characters). -/
theorem c8_sanitize (title : List Char) (n : Nat) (h : (natChars n).length ≤ 42) :
    (sanitizeTitle title n).length ≤ 50 ∧
    (∀ c ∈ sanitizeTitle title n, keepChar c = true) ∧
    (pyStrip (title.filter keepChar) = [] →
      sanitizeTitle title n = "section_".toList ++ natChars n) := by
  simp only [sanitizeTitle]
  by_cases hst : pyStrip (title.filter keepChar) = []
  · rw [if_pos hst]
    refine ⟨?_, ?_, fun _ => rfl⟩
    · rw [List.length_append]
      have h8 : ("section_".toList).length = 8 := rfl
      omega
    · intro c hc
      rcases List.mem_append.mp hc with hc | hc
      · have hall : ∀ c ∈ "section_".toList, keepChar c = true := by decide
        exact hall c hc
      · exact keepChar_of_digit (natCharsAux_digits _ _ c hc)
  · rw [if_neg hst]
    refine ⟨?_, ?_, fun hcon => absurd hcon hst⟩
    · have hlen := List.length_take 50 (pyStrip (title.filter keepChar))
      omega
    · intro c hc
      have h1 : c ∈ pyStrip (title.filter keepChar) := (List.take_sublist _ _).subset hc
      have h2 := mem_pyStrip h1
      exact (List.mem_filter.mp h2).2

/-- Witness for C8 at the title `"?"` (all characters dropped) and index 3. -/
theorem c8_sanitize_witness :
    (sanitizeTitle ['?'] 3).length ≤ 50 ∧
      sanitizeTitle ['?'] 3 = "section_".toList ++ natChars 3 :=
  ⟨(c8_sanitize ['?'] 3 (by decide)).1, (c8_sanitize ['?'] 3 (by decide)).2.2 (by decide)⟩

end PdfSplit

namespace PdfSplit

/-! ### split_by_keyword: structure of the partition loop -/

theorem filesOf_cons_cons (a b : Nat) (rest : List Nat) :
    filesOf (a :: b :: rest) =
      (if a < b then [pyRangeNat a b] else []) ++ filesOf (b :: rest) := rfl

theorem pyRangeNat_zero (n : Nat) : pyRangeNat 0 n = List.range n := by
  unfold pyRangeNat
  rw [Nat.sub_zero, List.range_eq_range']

theorem pairwise_concat_lt {l : List Nat} {t : Nat} (h : List.Pairwise (· < ·) l)
    (hb : ∀ x ∈ l, x < t) : List.Pairwise (· < ·) (l ++ [t]) := by
  rw [List.pairwise_append]
  refine ⟨h, List.pairwise_singleton _ _, ?_⟩
  intro a ha b hb'
  rw [List.mem_singleton] at hb'
  subst hb'
  exact hb a ha

theorem filesOf_head_mem : ∀ (pts : List Nat), List.Pairwise (· < ·) pts →
    ∀ p ∈ pts.dropLast, ∃ f ∈ filesOf pts, f.head? = some p
  | [], _, p, hp => by simp at hp
  | [a], _, p, hp => by simp at hp
  | a :: b :: rest, hpw, p, hp => by
      obtain ⟨hra, hpw'⟩ := List.pairwise_cons.mp hpw
      have hab : a < b := hra b (by simp)
      rw [List.dropLast_cons₂] at hp
      rw [filesOf_cons_cons, if_pos hab]
      rcases List.mem_cons.mp hp with rfl | hp'
      · exact ⟨pyRangeNat p b, List.mem_append_left _ (by simp), pyRangeNat_head? hab⟩
      · obtain ⟨f, hf, hh⟩ := filesOf_head_mem (b :: rest) hpw' p hp'
        exact ⟨f, List.mem_append_right _ hf, hh⟩

theorem filesOf_getLast : ∀ (rest : List Nat) (a b t : Nat),
    List.Pairwise (· < ·) (a :: b :: rest) → (a :: b :: rest).getLast? = some t →
    ∃ s, s < t ∧ (filesOf (a :: b :: rest)).getLast? = some (pyRangeNat s t)
  | [], a, b, t, hpw, hl => by
      simp at hl
      subst hl
      obtain ⟨hra, _⟩ := List.pairwise_cons.mp hpw
      have hab : a < b := hra b (by simp)
      refine ⟨a, hab, ?_⟩
      rw [filesOf_cons_cons, if_pos hab]
      rfl
  | c :: rest', a, b, t, hpw, hl => by
      obtain ⟨hra, hpw'⟩ := List.pairwise_cons.mp hpw
      have hab : a < b := hra b (by simp)
      rw [List.getLast?_cons_cons] at hl
      obtain ⟨s, hst, hfl⟩ := filesOf_getLast rest' b c t hpw' hl
      refine ⟨s, hst, ?_⟩
      rw [filesOf_cons_cons, if_pos hab, List.getLast?_append, hfl]
      rfl

/-- The split points of a keyword run, after discarding the one possible
duplicate (a match on page 0): the output of `split_by_keyword` is the file
list of a strictly increasing list of cut points that starts at 0, ends at
`total`, collects every matching page, and whose inner points lie strictly
between 0 and `total`. -/
theorem keyword_shape (total : Nat) (hits : Nat → Bool) (h1 : 1 ≤ total) :
    ∃ l : List Nat,
      split_by_keyword total hits = filesOf ((0 :: l) ++ [total]) ∧
      List.Pairwise (· < ·) ((0 :: l) ++ [total]) ∧
      (∀ p ∈ (List.range total).filter hits, p ∈ 0 :: l) ∧
      (∀ x ∈ l, 0 < x ∧ x < total) := by
  have hpw_ms : List.Pairwise (· < ·) ((List.range total).filter hits) :=
    List.Pairwise.filter _ (List.sorted_lt_range total)
  have hlt_ms : ∀ m ∈ (List.range total).filter hits, m < total := fun m hm =>
    List.mem_range.mp (List.mem_filter.mp hm).1
  have hsp : split_by_keyword total hits =
      filesOf ((0 :: (List.range total).filter hits) ++ [total]) := rfl
  cases hms : (List.range total).filter hits with
  | nil =>
      refine ⟨[], ?_, ?_, ?_, ?_⟩
      · rw [hsp, hms]
      · refine pairwise_concat_lt (List.pairwise_singleton _ _) ?_
        intro x hx
        rw [List.mem_singleton] at hx
        omega
      · intro p hp
        simp at hp
      · intro x hx
        simp at hx
  | cons m ms' =>
      rw [hms] at hpw_ms hlt_ms
      obtain ⟨hm_lt, hpw'⟩ := List.pairwise_cons.mp hpw_ms
      by_cases hm0 : m = 0
      · subst hm0
        refine ⟨ms', ?_, ?_, ?_, ?_⟩
        · rw [hsp, hms]
          show filesOf (0 :: 0 :: (ms' ++ [total])) = filesOf (0 :: (ms' ++ [total]))
          rw [filesOf_cons_cons, if_neg (by omega)]
          rfl
        · refine pairwise_concat_lt (List.pairwise_cons.mpr ⟨hm_lt, hpw'⟩) ?_
          intro x hx
          rcases List.mem_cons.mp hx with rfl | hx'
          · omega
          · exact hlt_ms x (by simp [hx'])
        · exact fun p hp => hp
        · intro x hx
          exact ⟨hm_lt x hx, hlt_ms x (by simp [hx])⟩
      · refine ⟨m :: ms', ?_, ?_, ?_, ?_⟩
        · rw [hsp, hms]
        · refine pairwise_concat_lt ?_ ?_
          · refine List.pairwise_cons.mpr ⟨?_, hpw_ms⟩
            intro y hy
            rcases List.mem_cons.mp hy with rfl | hy'
            · omega
            · have := hm_lt y hy'
              omega
          · intro x hx
            rcases List.mem_cons.mp hx with rfl | hx'
            · omega
            · exact hlt_ms x hx'
        · exact fun p hp => List.mem_cons_of_mem _ hp
        · intro x hx
          rcases List.mem_cons.mp hx with rfl | hx'
          · exact ⟨by omega, hlt_ms x (by simp)⟩
          · have := hm_lt x hx'
            exact ⟨by omega, hlt_ms x (by simp [hx'])⟩

end PdfSplit

namespace PdfSplit

/-- C4: for every non-empty document and keyword-match predicate, every
matching page starts an output partition, the first partition starts at
0-based page 0, the last partition ends at the total page count; with matches
exactly on pages {0, 4, 9} the output is exactly the partitions
`[0,4)`, `[4,9)`, `[9,total)`; and with no matching page the output is one
file containing all pages. -/
theorem c4_split_by_keyword (total : Nat) (hits : Nat → Bool) (h1 : 1 ≤ total) :
    (∀ p, p < total → hits p = true →
        ∃ f ∈ split_by_keyword total hits, f.head? = some p) ∧
    (∃ f, (split_by_keyword total hits).head? = some f ∧ f.head? = some 0) ∧
    ((split_by_keyword total hits).getLast?.bind List.getLast? = some (total - 1)) ∧
    (10 ≤ total → hits = (fun p => decide (p = 0 ∨ p = 4 ∨ p = 9)) →
        split_by_keyword total hits =
          [pyRangeNat 0 4, pyRangeNat 4 9, pyRangeNat 9 total]) ∧
    ((∀ p, p < total → hits p = false) →
        split_by_keyword total hits = [List.range total]) := by
  obtain ⟨l, hfe, hpw, hmem, hbound⟩ := keyword_shape total hits h1
  refine ⟨?_, ?_, ?_, ?_, ?_⟩
  · intro p hp hhit
    have hpm : p ∈ (List.range total).filter hits :=
      List.mem_filter.mpr ⟨List.mem_range.mpr hp, hhit⟩
    have hpdl : p ∈ ((0 :: l) ++ [total]).dropLast := by
      rw [List.dropLast_concat]
      exact hmem p hpm
    obtain ⟨f, hf, hh⟩ := filesOf_head_mem _ hpw p hpdl
    refine ⟨f, ?_, hh⟩
    rw [hfe]
    exact hf
  · rw [hfe]
    cases l with
    | nil =>
        refine ⟨pyRangeNat 0 total, ?_, pyRangeNat_head? (by omega)⟩
        show (filesOf (0 :: total :: [])).head? = _
        rw [filesOf_cons_cons, if_pos (by omega)]
        rfl
    | cons x l' =>
        have h0x : 0 < x := (List.pairwise_cons.mp hpw).1 x (by simp)
        refine ⟨pyRangeNat 0 x, ?_, pyRangeNat_head? h0x⟩
        show (filesOf (0 :: x :: (l' ++ [total]))).head? = _
        rw [filesOf_cons_cons, if_pos h0x]
        rfl
  · rw [hfe]
    have hlast : ((0 :: l) ++ [total]).getLast? = some total := List.getLast?_concat _
    cases l with
    | nil =>
        obtain ⟨s, hst, hfl⟩ :=
          filesOf_getLast [] 0 total total hpw (by simp)
        show ((filesOf (0 :: total :: [])).getLast?).bind List.getLast? = some (total - 1)
        rw [hfl, Option.some_bind]
        exact pyRangeNat_getLast? hst
    | cons x l' =>
        obtain ⟨s, hst, hfl⟩ :=
          filesOf_getLast (l' ++ [total]) 0 x total hpw hlast
        show ((filesOf (0 :: x :: (l' ++ [total]))).getLast?).bind List.getLast? =
          some (total - 1)
        rw [hfl, Option.some_bind]
        exact pyRangeNat_getLast? hst
  · intro h10 hhits
    subst hhits
    obtain ⟨k, rfl⟩ : ∃ k, total = 10 + k := ⟨total - 10, by omega⟩
    have hfil : (List.range (10 + k)).filter (fun p => decide (p = 0 ∨ p = 4 ∨ p = 9)) =
        [0, 4, 9] := by
      rw [List.range_add, List.filter_append]
      have hlft : (List.range 10).filter (fun p => decide (p = 0 ∨ p = 4 ∨ p = 9)) =
          [0, 4, 9] := by decide
      have hrgt : ((List.range k).map (10 + ·)).filter
          (fun p => decide (p = 0 ∨ p = 4 ∨ p = 9)) = [] := by
        rw [List.filter_eq_nil_iff]
        intro a ha
        obtain ⟨y, _, rfl⟩ := List.mem_map.mp ha
        simp
        omega
      rw [hlft, hrgt, List.append_nil]
    show filesOf (splitPoints (10 + k) _) = _
    unfold splitPoints
    rw [hfil]
    show filesOf (0 :: 0 :: 4 :: 9 :: (10 + k) :: []) = _
    rw [filesOf_cons_cons, if_neg (by omega), filesOf_cons_cons, if_pos (by omega),
      filesOf_cons_cons, if_pos (by omega), filesOf_cons_cons, if_pos (by omega)]
    simp [filesOf]
  · intro hnone
    have hfil : (List.range total).filter hits = [] := by
      rw [List.filter_eq_nil_iff]
      intro a ha
      rw [List.mem_range] at ha
      simp [hnone a ha]
    show filesOf (splitPoints total hits) = _
    unfold splitPoints
    rw [hfil]
    show filesOf (0 :: total :: []) = _
    rw [filesOf_cons_cons, if_pos (by omega), pyRangeNat_zero]
    simp [filesOf]

/-- Witness for C4 on a 12-page document with matches on pages 0, 4 and 9. -/
theorem c4_split_by_keyword_witness :
    split_by_keyword 12 (fun p => decide (p = 0 ∨ p = 4 ∨ p = 9)) =
      [pyRangeNat 0 4, pyRangeNat 4 9, pyRangeNat 9 12] :=
  (c4_split_by_keyword 12 (fun p => decide (p = 0 ∨ p = 4 ∨ p = 9))
    (by decide)).2.2.2.1 (by decide) rfl

end PdfSplit
